import Mathlib

/-!
Verification of the cryptographic content-integrity core of the
`myProjectsRavi/bookmarks` repository: the Merkle-tree time-lock seal
(`src/utils/merkleTree.ts`) and the SimHash similarity engine
(`src/unnamed/part_001`).

The TypeScript source is shallowly embedded:

* JavaScript numbers that only ever hold exact integers are modelled as
  `Int` (or `Nat` when the source keeps them in unsigned-32-bit form via
  `>>> 0`).  JavaScript's 32-bit bitwise operators are modelled explicitly
  through ECMAScript's `ToUint32` / `ToInt32` conversions.
* SHA-256 lives behind the Web Crypto API, outside the repository, so the
  digest is an explicit function parameter `sha : String → String`; the
  repository's own code (chunking, tree reduction, seal construction and
  the verification case analysis) is embedded verbatim.
* `Date.now()` readings and the random nonce are external inputs and
  become explicit parameters `now` / `nonce`.
-/

set_option maxHeartbeats 1000000

/-! ## ECMAScript 32-bit integer conversions -/

/-- ECMAScript `ToUint32` applied to an exact integer: the representative of
`i` modulo `2^32` in `[0, 2^32)`.  This is what the `>>> 0` idiom in the
source produces. -/
def toUint32 (i : Int) : Nat := (i % 4294967296).toNat

/-- Reinterpret a 32-bit pattern as a signed 32-bit value (ECMAScript
`ToInt32` of a number that is congruent to `p` mod `2^32`). -/
def toInt32 (p : Nat) : Int :=
  if p % 4294967296 < 2147483648 then ((p % 4294967296 : Nat) : Int)
  else ((p % 4294967296 : Nat) : Int) - 4294967296

/-- ECMAScript `ToInt32` on an exact integer. -/
def jsToInt32 (i : Int) : Int := toInt32 (toUint32 i)

/-- JavaScript `a & b` (bitwise AND of the 32-bit patterns, signed result). -/
def jsAnd (a b : Int) : Int := toInt32 (toUint32 a &&& toUint32 b)

/-- JavaScript `a ^ b` (bitwise XOR of the 32-bit patterns, signed result). -/
def jsXor (a b : Int) : Int := toInt32 (toUint32 a ^^^ toUint32 b)

/-- JavaScript `a >> k` for a constant shift `k < 32`: sign-extending
(arithmetic) right shift, i.e. flooring division of the signed value. -/
def jsShr (a : Int) (k : Nat) : Int := Int.fdiv (jsToInt32 a) (2 ^ k)

/-! ## Merkle tree (`src/utils/merkleTree.ts`)

`chunkContent` iterates `for (let i = 0; i < content.length; i += chunkSize)`
pushing `content.slice(i, i + chunkSize)`; we embed the loop as recursion on
the remaining character list (for `chunkSize = 0` the JS loop would not
terminate on non-empty content, so the recursion is guarded; all claims
assume a positive size). -/

def chunkContentAux (l : List Char) (size : Nat) : List (List Char) :=
  if size = 0 then []
  else if l = [] then []
  else l.take size :: chunkContentAux (l.drop size) size
termination_by l.length
decreasing_by
  simp only [List.length_drop]
  rename_i hsize hl
  have h1 : 0 < l.length := by
    cases l with
    | nil => exact absurd rfl hl
    | cons a t => simp
  omega

/-- `chunkContent` from `src/utils/merkleTree.ts` (lines 36–42): split into
`chunkSize`-character slices, returning `['']` when no chunk was produced. -/
def chunkContent (content : String) (chunkSize : Nat) : List String :=
  let chunks := (chunkContentAux content.toList chunkSize).map String.mk
  if chunks.length > 0 then chunks else [""]

/-- One bottom-up reduction level of `buildMerkleRoot`: hash adjacent pairs
`sha (level[i] + level[i+1])`, promoting an unpaired final node unchanged. -/
def pairLevel (sha : String → String) : List String → List String
  | [] => []
  | [a] => [a]
  | a :: b :: rest => sha (a ++ b) :: pairLevel sha rest

theorem pairLevel_length (sha : String → String) :
    ∀ l : List String, (pairLevel sha l).length = (l.length + 1) / 2
  | [] => by simp [pairLevel]
  | [a] => by simp [pairLevel]
  | a :: b :: rest => by
    simp only [pairLevel, List.length_cons]
    rw [pairLevel_length sha rest]
    omega

/-- The `while (level.length > 1)` loop of `buildMerkleRoot`, as recursion on
the level; the final `level[0]` is `headD ""` (the level is never empty when
reached from `buildMerkleRoot`). -/
def merkleReduce (sha : String → String) (level : List String) : String :=
  if h : 1 < level.length then merkleReduce sha (pairLevel sha level)
  else level.headD ""
termination_by level.length
decreasing_by
  rw [pairLevel_length]
  omega

/-- `buildMerkleRoot` from `src/utils/merkleTree.ts` (lines 47–71): hash all
chunks into leaves, then reduce pairwise until one hash remains. -/
def buildMerkleRoot (sha : String → String) (content : String) : String :=
  merkleReduce sha ((chunkContent content 4096).map sha)

/-- `TimeLockSeal` interface (lines 76–82).  `timestamp` is a JS number
holding an exact integer. -/
structure TimeLockSeal where
  contentHash : String
  timestamp : Int
  nonce : String
  sealHash : String
  version : Int
deriving Repr, DecidableEq

/-- `createTimeLockSeal` (lines 88–110).  `now` is the `Date.now()` reading
and `nonce` the hex string derived from `crypto.getRandomValues`, both
external inputs. -/
def createTimeLockSeal (sha : String → String) (now : Int) (nonce : String)
    (content : String) : TimeLockSeal :=
  let contentHash := buildMerkleRoot sha content
  let sealHash := sha (contentHash ++ ":" ++ toString now ++ ":" ++ nonce)
  ⟨contentHash, now, nonce, sealHash, 1⟩

/-- The `{ valid: boolean; reason?: string }` result of verification. -/
structure VerifyResult where
  valid : Bool
  reason : Option String
deriving Repr, DecidableEq

/-- `verifyTimeLockSeal` (lines 116–143).  `now` is the `Date.now()` reading
during verification.  Every operation in the `try` block is total in this
model, so the `catch` branch (`"Verification error"`) is unreachable. -/
def verifyTimeLockSeal (sha : String → String) (now : Int) (content : String)
    (s : TimeLockSeal) : VerifyResult :=
  if buildMerkleRoot sha content ≠ s.contentHash then
    ⟨false, some "Content has been modified"⟩
  else if sha (s.contentHash ++ ":" ++ toString s.timestamp ++ ":" ++ s.nonce)
      ≠ s.sealHash then
    ⟨false, some "Seal has been tampered with"⟩
  else if s.timestamp > now then
    ⟨false, some "Timestamp is in the future"⟩
  else
    ⟨true, none⟩

/-- Claim C1: for every content string `c`, if the clock value read during
verification (`now2`) is at least the clock value read during creation
(`now1`), then `verifyTimeLockSeal c (createTimeLockSeal c)` returns
`{valid: true}` with no failure reason. -/
theorem seal_roundtrip (sha : String → String) (now1 now2 : Int) (nonce : String)
    (c : String) (h : now1 ≤ now2) :
    verifyTimeLockSeal sha now2 c (createTimeLockSeal sha now1 nonce c) =
      ⟨true, none⟩ := by
  unfold verifyTimeLockSeal createTimeLockSeal
  simp only []
  rw [if_neg, if_neg, if_neg]
  · omega
  · intro hne
    exact hne rfl
  · intro hne
    exact hne rfl

theorem seal_roundtrip_witness :
    verifyTimeLockSeal (fun s => s) 7 "x" (createTimeLockSeal (fun s => s) 3 "n" "x") =
      ⟨true, none⟩ :=
  seal_roundtrip (fun s => s) 3 7 "n" "x" (by decide)

/-- Claim C2: `verifyTimeLockSeal` performs exactly the specified case
analysis in the specified order — content-hash mismatch, then seal-hash
mismatch, then future timestamp, then success — and, being a total function
returning a structured `VerifyResult`, never throws: its result is always
one of the four listed structured outcomes.  (In this embedding every
operation of the `try` block is total, so the `catch` branch producing
`"Verification error"` is dead code and no exception can propagate.) -/
theorem verify_case_analysis (sha : String → String) (now : Int) (content : String)
    (s : TimeLockSeal) :
    verifyTimeLockSeal sha now content s =
      (if buildMerkleRoot sha content ≠ s.contentHash then
        ⟨false, some "Content has been modified"⟩
      else if sha (s.contentHash ++ ":" ++ toString s.timestamp ++ ":" ++ s.nonce)
          ≠ s.sealHash then
        ⟨false, some "Seal has been tampered with"⟩
      else if s.timestamp > now then
        ⟨false, some "Timestamp is in the future"⟩
      else
        ⟨true, none⟩)
    ∧ (verifyTimeLockSeal sha now content s = ⟨true, none⟩
      ∨ verifyTimeLockSeal sha now content s = ⟨false, some "Content has been modified"⟩
      ∨ verifyTimeLockSeal sha now content s = ⟨false, some "Seal has been tampered with"⟩
      ∨ verifyTimeLockSeal sha now content s = ⟨false, some "Timestamp is in the future"⟩) := by
  refine ⟨rfl, ?_⟩
  unfold verifyTimeLockSeal
  split
  · right; left; rfl
  · split
    · right; right; left; rfl
    · split
      · right; right; right; rfl
      · left; rfl

/-! ## Chunking and Merkle-root lemmas -/

theorem chunkContentAux_nil (size : Nat) : chunkContentAux [] size = [] := by
  unfold chunkContentAux
  split
  · rfl
  · simp

theorem chunkContentAux_flatten :
    ∀ (l : List Char) (size : Nat), 0 < size → (chunkContentAux l size).flatten = l := by
  intro l size
  induction l, size using chunkContentAux.induct with
  | case1 l => intro hs; omega
  | case2 size hsz =>
    intro hs
    unfold chunkContentAux
    simp [hsz]
  | case3 l size hsz hnil ih =>
    intro hs
    unfold chunkContentAux
    simp only [if_neg hsz, if_neg hnil, List.flatten_cons]
    rw [ih hs]
    exact List.take_append_drop size l

theorem chunkContentAux_mem_length :
    ∀ (l : List Char) (size : Nat), 0 < size →
      ∀ s ∈ chunkContentAux l size, 0 < s.length ∧ s.length ≤ size := by
  intro l size
  induction l, size using chunkContentAux.induct with
  | case1 l => intro hs; omega
  | case2 size hsz =>
    intro hs s hmem
    rw [chunkContentAux_nil] at hmem
    exact absurd hmem (List.not_mem_nil s)
  | case3 l size hsz hnil ih =>
    intro hs s hmem
    unfold chunkContentAux at hmem
    rw [if_neg hsz, if_neg hnil] at hmem
    rcases List.mem_cons.mp hmem with h | h
    · subst h
      have hpos : 0 < l.length := List.length_pos.mpr hnil
      simp only [List.length_take]
      omega
    · exact ih hs s h

theorem chunkContentAux_dropLast :
    ∀ (l : List Char) (size : Nat), 0 < size →
      ∀ s ∈ (chunkContentAux l size).dropLast, s.length = size := by
  intro l size
  induction l, size using chunkContentAux.induct with
  | case1 l => intro hs; omega
  | case2 size hsz =>
    intro hs s hmem
    rw [chunkContentAux_nil] at hmem
    exact absurd hmem (List.not_mem_nil s)
  | case3 l size hsz hnil ih =>
    intro hs s hmem
    unfold chunkContentAux at hmem
    rw [if_neg hsz, if_neg hnil] at hmem
    by_cases hrest : chunkContentAux (l.drop size) size = []
    · rw [hrest] at hmem
      exact absurd hmem (List.not_mem_nil s)
    · rw [List.dropLast_cons_of_ne_nil hrest] at hmem
      rcases List.mem_cons.mp hmem with h | h
      · subst h
        have hdrop : l.drop size ≠ [] := by
          intro hd
          rw [hd, chunkContentAux_nil] at hrest
          exact hrest rfl
        have hlen : size < l.length := by
          by_contra hle
          exact hdrop (List.drop_eq_nil_of_le (by omega))
        simp only [List.length_take]
        omega
      · exact ih hs s h

theorem chunkContent_of_ne_nil (c : String) (size : Nat) (hs : 0 < size)
    (hc : c.data ≠ []) :
    chunkContent c size = (chunkContentAux c.data size).map String.mk := by
  unfold chunkContent
  simp only [String.toList]
  rw [if_pos]
  have : chunkContentAux c.data size ≠ [] := by
    unfold chunkContentAux
    rw [if_neg (by omega), if_neg hc]
    simp
  simp only [List.length_map]
  exact List.length_pos.mpr this

theorem chunkContent_of_nil (c : String) (size : Nat) (hc : c.data = []) :
    chunkContent c size = [""] := by
  unfold chunkContent
  simp only [String.toList, hc, chunkContentAux_nil, List.map_nil, List.length_nil]
  rfl

theorem join_map_mk (ll : List (List Char)) :
    String.join (ll.map String.mk) = String.mk ll.flatten := by
  have key : ∀ (ll : List (List Char)) (acc : List Char),
      List.foldl (fun r s => r ++ s) (String.mk acc) (ll.map String.mk) =
        String.mk (acc ++ ll.flatten) := by
    intro ll
    induction ll with
    | nil => intro acc; simp
    | cons d tl ih =>
      intro acc
      simp only [List.map_cons, List.foldl_cons, List.flatten_cons]
      have : String.mk acc ++ String.mk d = String.mk (acc ++ d) := rfl
      rw [this, ih, List.append_assoc]
  have := key ll []
  simpa [String.join] using this

/-- Claim C5: for every content string `c` and positive `size`,
`chunkContent c size` returns the consecutive non-overlapping substrings of
`c` in order: their concatenation is `c`, every chunk before the last has
exactly `size` characters, every chunk has at most `size` characters, chunks
of non-empty content are non-empty, empty content yields exactly `[""]`, and
`chunkContent ("a" repeated 5000 times) 4096` has chunk lengths 4096 and
904. -/
theorem chunkContent_spec (c : String) (size : Nat) (hs : 0 < size) :
    String.join (chunkContent c size) = c
    ∧ chunkContent c size ≠ []
    ∧ (c = "" → chunkContent c size = [""])
    ∧ (∀ s ∈ (chunkContent c size).dropLast, s.length = size)
    ∧ (∀ s ∈ chunkContent c size, s.length ≤ size)
    ∧ (c ≠ "" → ∀ s ∈ chunkContent c size, 0 < s.length)
    ∧ (chunkContent (String.mk (List.replicate 5000 'a')) 4096).map String.length
        = [4096, 904] := by
  have hrep : ∀ n : Nat, 0 < n → List.replicate n 'a' ≠ [] := by
    intro n hn
    exact List.length_pos.mp (by rw [List.length_replicate]; omega)
  have example5000 :
      (chunkContent (String.mk (List.replicate 5000 'a')) 4096).map String.length
        = [4096, 904] := by
    rw [chunkContent_of_ne_nil (String.mk (List.replicate 5000 'a')) 4096
      (by omega) (hrep 5000 (by omega))]
    show ((chunkContentAux (List.replicate 5000 'a') 4096).map String.mk).map
        String.length = [4096, 904]
    rw [chunkContentAux]
    rw [if_neg (by omega), if_neg (hrep 5000 (by omega))]
    rw [List.drop_replicate]
    have h904 : (5000 - 4096 : Nat) = 904 := by omega
    rw [h904]
    rw [chunkContentAux]
    rw [if_neg (by omega), if_neg (hrep 904 (by omega))]
    rw [List.drop_replicate]
    have h0 : (904 - 4096 : Nat) = 0 := by omega
    rw [h0]
    show ((List.take 4096 (List.replicate 5000 'a') ::
      List.take 4096 (List.replicate 904 'a') ::
      chunkContentAux (List.replicate 0 'a') 4096).map
        String.mk).map String.length = [4096, 904]
    rw [List.take_replicate, List.take_replicate]
    have hm1 : min 4096 5000 = 4096 := by omega
    have hm2 : min 4096 904 = 904 := by omega
    rw [hm1, hm2]
    show ((List.replicate 4096 'a' :: List.replicate 904 'a' ::
      chunkContentAux [] 4096).map String.mk).map String.length = [4096, 904]
    rw [chunkContentAux_nil]
    simp only [List.map_cons, List.map_nil, String.length_mk, List.length_replicate]
  by_cases hc : c.data = []
  · have hceq : c = "" := String.ext hc
    subst hceq
    have hch : chunkContent "" size = [""] := chunkContent_of_nil _ _ hc
    rw [hch]
    refine ⟨rfl, by simp, fun _ => rfl, by simp, ?_, ?_, example5000⟩
    · intro s hmem
      have hs' := List.mem_singleton.mp hmem
      subst hs'
      simp
    · intro hne
      exact absurd rfl hne
  · rw [chunkContent_of_ne_nil c size hs hc]
    refine ⟨?_, ?_, ?_, ?_, ?_, ?_, example5000⟩
    · rw [join_map_mk, chunkContentAux_flatten c.data size hs]
    · have : chunkContentAux c.data size ≠ [] := by
        unfold chunkContentAux
        rw [if_neg (by omega), if_neg hc]
        simp
      simp [this]
    · intro hceq
      exact absurd (congrArg String.data hceq) (by simpa using hc)
    · intro s hmem
      rw [← List.map_dropLast] at hmem
      rcases List.mem_map.mp hmem with ⟨cs, hcs, rfl⟩
      rw [String.length_mk]
      exact chunkContentAux_dropLast c.data size hs cs hcs
    · intro s hmem
      rcases List.mem_map.mp hmem with ⟨cs, hcs, rfl⟩
      rw [String.length_mk]
      exact (chunkContentAux_mem_length c.data size hs cs hcs).2
    · intro _ s hmem
      rcases List.mem_map.mp hmem with ⟨cs, hcs, rfl⟩
      rw [String.length_mk]
      exact (chunkContentAux_mem_length c.data size hs cs hcs).1

theorem chunkContent_spec_witness :
    String.join (chunkContent "ab" 4096) = "ab"
    ∧ chunkContent "ab" 4096 ≠ []
    ∧ ("ab" = "" → chunkContent "ab" 4096 = [""])
    ∧ (∀ s ∈ (chunkContent "ab" 4096).dropLast, s.length = 4096)
    ∧ (∀ s ∈ chunkContent "ab" 4096, s.length ≤ 4096)
    ∧ ("ab" ≠ "" → ∀ s ∈ chunkContent "ab" 4096, 0 < s.length)
    ∧ (chunkContent (String.mk (List.replicate 5000 'a')) 4096).map String.length
        = [4096, 904] :=
  chunkContent_spec "ab" 4096 (by decide)

/-- Claim C4: `buildMerkleRoot` hashes each chunk into a leaf and then
repeatedly pairs adjacent hashes left-to-right as `sha (left ++ right)`,
promoting an odd last node unchanged, until one hash remains; in particular
for content of at most 4096 characters (one chunk) the root is that chunk's
leaf hash `sha c`. -/
theorem buildMerkleRoot_spec (sha : String → String) (c : String) :
    buildMerkleRoot sha c = merkleReduce sha ((chunkContent c 4096).map sha)
    ∧ (∀ a b rest, pairLevel sha (a :: b :: rest) = sha (a ++ b) :: pairLevel sha rest)
    ∧ (∀ a, pairLevel sha [a] = [a])
    ∧ (∀ level : List String, 1 < level.length →
        merkleReduce sha level = merkleReduce sha (pairLevel sha level))
    ∧ (∀ level : List String, level.length = 1 → merkleReduce sha level = level.headD "")
    ∧ (c.length ≤ 4096 → buildMerkleRoot sha c = sha c) := by
  have hstep : ∀ level : List String, 1 < level.length →
      merkleReduce sha level = merkleReduce sha (pairLevel sha level) := by
    intro level hlen
    rw [merkleReduce]
    rw [dif_pos hlen]
  have hstop : ∀ level : List String, level.length = 1 →
      merkleReduce sha level = level.headD "" := by
    intro level hlen
    rw [merkleReduce]
    rw [dif_neg (by omega)]
  refine ⟨rfl, fun a b rest => rfl, fun a => rfl, hstep, hstop, ?_⟩
  intro hlen
  have hsingle : chunkContent c 4096 = [c] := by
    by_cases hc : c.data = []
    · rw [chunkContent_of_nil c 4096 hc]
      have : c = "" := String.ext hc
      rw [this]
    · rw [chunkContent_of_ne_nil c 4096 (by omega) hc]
      have hlen' : c.data.length ≤ 4096 := hlen
      rw [chunkContentAux]
      rw [if_neg (by omega), if_neg hc]
      rw [List.drop_eq_nil_of_le hlen', chunkContentAux_nil]
      rw [List.take_of_length_le hlen']
      rfl
  unfold buildMerkleRoot
  rw [hsingle]
  rw [List.map_singleton, hstop [sha c] (by simp)]
  rfl

theorem buildMerkleRoot_spec_witness :
    buildMerkleRoot (fun s => s) "hi" = (fun s : String => s) "hi" :=
  (buildMerkleRoot_spec (fun s => s) "hi").2.2.2.2.2 (by decide)

/-! ## SimHash (`src/unnamed/part_001`)

The 64-bit fingerprint is represented, as in the source, by two unsigned
32-bit halves. -/

/-- `SimHash64` interface (lines 26–29): `high`/`low` are 32-bit patterns. -/
structure SimHash64 where
  high : Nat
  low : Nat
deriving Repr, DecidableEq

/-- Loop body of `fnv1a64` (lines 55–65), for one character code `c`:
`low ^= char`, `temp = low * FNV_PRIME_LOW`, `low = temp >>> 0`,
`high = ((high * FNV_PRIME_LOW) + (high * FNV_PRIME_HIGH)
        + Math.floor(temp / 0x100000000)) >>> 0`. -/
def fnv1a64Step (acc : SimHash64) (c : Nat) : SimHash64 :=
  let lowSigned := jsXor (acc.low : Int) (c : Int)
  let temp : Int := lowSigned * 0x01b3
  let newLow := toUint32 temp
  let newHigh := toUint32 ((acc.high : Int) * 0x01b3 + (acc.high : Int) * 0x0100
    + Int.fdiv temp 0x100000000)
  ⟨newHigh, newLow⟩

/-- `fnv1a64` (lines 46–68) over the UTF-16 character codes of the token:
offset constants `FNV_OFFSET_HIGH = 0xcbf29ce4`, `FNV_OFFSET_LOW =
0x62b82175`. -/
def fnv1a64 (cs : List Nat) : SimHash64 :=
  cs.foldl fnv1a64Step ⟨0xcbf29ce4, 0x62b82175⟩

/-- The standard FNV-1a 64-bit recurrence (per-character `xor` then multiply
by the prime `0x100000001b3` modulo `2^64`), started from an arbitrary
64-bit accumulator.  Written from the wording of claim C3, not from the
source. -/
def fnv1a64StdFrom (init : Nat) (cs : List Nat) : Nat :=
  cs.foldl (fun h c => ((h ^^^ c) * 0x100000001b3) % 18446744073709551616) init

/-- The standard FNV-1a 64-bit hash: offset basis `0xcbf29ce484222325`.
Written from the wording of claim C3, not from the source. -/
def fnv1a64Std (cs : List Nat) : Nat := fnv1a64StdFrom 0xcbf29ce484222325 cs

/-- Claim C3 counterexample: already on the token `"ab"` (character codes
`[97, 98]`), the hash computed by `fnv1a64` is not the standard FNV-1a
64-bit hash presented as high/low 32-bit halves. -/
theorem fnv1a64_not_standard :
    fnv1a64 [97, 98] ≠
      ⟨fnv1a64Std [97, 98] / 4294967296, fnv1a64Std [97, 98] % 4294967296⟩ := by
  decide

theorem toUint32_lt (i : Int) : toUint32 i < 4294967296 := by
  unfold toUint32
  omega

theorem fnv1a64Step_low (acc : SimHash64) (c : Nat) (hl : acc.low < 4294967296)
    (hc : c < 4294967296) :
    (fnv1a64Step acc c).low = ((acc.low ^^^ c) * 0x01b3) % 4294967296 := by
  show toUint32 (jsXor (acc.low : Int) (c : Int) * 0x01b3) = _
  unfold jsXor toUint32 toInt32
  have h1 : ((acc.low : Int) % 4294967296).toNat = acc.low := by omega
  have h2 : ((c : Int) % 4294967296).toNat = c := by omega
  rw [h1, h2]
  have hx : acc.low ^^^ c < 4294967296 :=
    Nat.xor_lt_two_pow (n := 32) (by omega) (by omega)
  split
  · omega
  · omega

theorem mod_two_pow_32_eq_and (a : Nat) : a % 4294967296 = a &&& 4294967295 := by
  have h32 := Nat.and_pow_two_sub_one_eq_mod a 32
  norm_num at h32
  exact h32.symm

theorem xor_mod_two_pow_32 (h c : Nat) (hc : c < 4294967296) :
    (h ^^^ c) % 4294967296 = (h % 4294967296) ^^^ c := by
  have hand : c &&& 4294967295 = c := by
    rw [← mod_two_pow_32_eq_and]
    omega
  rw [mod_two_pow_32_eq_and, mod_two_pow_32_eq_and, Nat.and_xor_distrib_right, hand]

theorem fnv1a64StdFrom_step_mod (h c : Nat) (hc : c < 4294967296) :
    ((h ^^^ c) * 0x100000001b3) % 18446744073709551616 % 4294967296 =
      ((h % 4294967296 ^^^ c) * 0x01b3) % 4294967296 := by
  have hdvd : (4294967296 : Nat) ∣ 18446744073709551616 := by norm_num
  rw [Nat.mod_mod_of_dvd _ hdvd]
  calc (h ^^^ c) * 0x100000001b3 % 4294967296
      = ((h ^^^ c) % 4294967296) * (0x100000001b3 % 4294967296) % 4294967296 :=
        (Nat.mul_mod _ _ _)
    _ = ((h % 4294967296 ^^^ c) * 0x01b3) % 4294967296 := by
        rw [xor_mod_two_pow_32 h c hc]

theorem fnv1a64_foldl_low (cs : List Nat) :
    ∀ (acc : SimHash64) (H : Nat), (∀ c ∈ cs, c < 4294967296) →
      acc.low < 4294967296 → acc.low = H % 4294967296 →
      (cs.foldl fnv1a64Step acc).low = (fnv1a64StdFrom H cs) % 4294967296 := by
  induction cs with
  | nil =>
    intro acc H _ _ hlow
    simpa [fnv1a64StdFrom] using hlow
  | cons c cs ih =>
    intro acc H hmem hlt hlow
    have hc : c < 4294967296 := hmem c (List.mem_cons_self c cs)
    rw [List.foldl_cons]
    have hstd : fnv1a64StdFrom H (c :: cs) =
        fnv1a64StdFrom (((H ^^^ c) * 0x100000001b3) % 18446744073709551616) cs := by
      simp [fnv1a64StdFrom]
    rw [hstd]
    apply ih (fnv1a64Step acc c) _
      (fun d hd => hmem d (List.mem_cons_of_mem c hd)) (toUint32_lt _)
    rw [fnv1a64Step_low acc c hlt hc, hlow]
    exact (fnv1a64StdFrom_step_mod H c hc).symm

/-- Claim C3, amended: the per-token hash is not the standard FNV-1a 64-bit
hash (see `fnv1a64_not_standard`).  What does hold: its low 32-bit half
follows the genuine FNV-1a 64-bit recurrence (multiplication by the prime
`0x100000001b3` mod `2^64`) started from the code's non-standard offset
`0xcbf29ce462b82175` (low word `0x62b82175` instead of the standard
`0x84222325`); the high half diverges because the code multiplies the
cross term as `high * 0x100` where a faithful 64-bit product needs
`low * 0x100`. -/
theorem fnv1a64_low_is_fnv_from_code_offset (cs : List Nat)
    (h : ∀ c ∈ cs, c < 4294967296) :
    (fnv1a64 cs).low = (fnv1a64StdFrom 0xcbf29ce462b82175 cs) % 4294967296 := by
  unfold fnv1a64
  exact fnv1a64_foldl_low cs ⟨0xcbf29ce4, 0x62b82175⟩ 0xcbf29ce462b82175 h
    (by norm_num) (by norm_num)

theorem fnv1a64_low_is_fnv_from_code_offset_witness :
    (fnv1a64 [97, 98]).low =
      (fnv1a64StdFrom 0xcbf29ce462b82175 [97, 98]) % 4294967296 :=
  fnv1a64_low_is_fnv_from_code_offset [97, 98] (by decide)

/-! ## Hamming distance and the SWAR popcount (`src/unnamed/part_001`) -/

/-- `popcount32` (lines 164–171) with JavaScript semantics: `>>` is the
sign-extending shift and `&` operates on the 32-bit pattern. -/
def popcount32 (n : Int) : Int :=
  let a := n - jsAnd (jsShr n 1) 0x55555555
  let b := jsAnd a 0x33333333 + jsAnd (jsShr a 2) 0x33333333
  let c := jsAnd (b + jsShr b 4) 0x0f0f0f0f
  let d := c + jsShr c 8
  let e := d + jsShr d 16
  jsAnd e 0x3f

/-- `hammingDistance` (lines 152–159): XOR each half, popcount, sum. -/
def hammingDistance (a b : SimHash64) : Int :=
  popcount32 (jsXor (a.high : Int) (b.high : Int)) +
    popcount32 (jsXor (a.low : Int) (b.low : Int))

/-- Brute-force count of the bit positions at which the two fingerprints
differ, across both 32-bit halves.  Written from the wording of claim C6,
not from the source. -/
def diffBits (a b : SimHash64) : Nat :=
  (List.range 32).countP (fun i => a.high.testBit i != b.high.testBit i) +
    (List.range 32).countP (fun i => a.low.testBit i != b.low.testBit i)

/-! ### Bit-slicing helper lemmas -/

theorem testBit_add_mul_low {a b k i : Nat} (ha : a < 2 ^ k) (hi : i < k) :
    (a + 2 ^ k * b).testBit i = a.testBit i := by
  rw [Nat.testBit_to_div_mod, Nat.testBit_to_div_mod]
  have hk : (2 : Nat) ^ k = 2 ^ i * 2 ^ (k - i) := by
    rw [← Nat.pow_add]
    congr 1
    omega
  rw [hk, Nat.mul_assoc, Nat.add_mul_div_left _ _ (Nat.two_pow_pos i)]
  have h2 : 2 ^ (k - i) * b = 2 * (2 ^ (k - i - 1) * b) := by
    have hki : (2 : Nat) ^ (k - i) = 2 * 2 ^ (k - i - 1) := by
      conv_lhs => rw [show k - i = (k - i - 1) + 1 from by omega]
      rw [Nat.pow_succ']
    rw [hki, Nat.mul_assoc]
  rw [h2, Nat.add_mul_mod_self_left]

theorem testBit_add_mul_high {a b k j : Nat} (ha : a < 2 ^ k) :
    (a + 2 ^ k * b).testBit (k + j) = b.testBit j := by
  rw [Nat.testBit_to_div_mod, Nat.testBit_to_div_mod]
  have hdiv : (a + 2 ^ k * b) / 2 ^ (k + j) = b / 2 ^ j := by
    rw [Nat.pow_add, ← Nat.div_div_eq_div_mul]
    congr 1
    rw [Nat.add_mul_div_left _ _ (Nat.two_pow_pos k), Nat.div_eq_of_lt ha, Nat.zero_add]
  rw [hdiv]

theorem testBit_mul_pow_low {b k i : Nat} (hi : i < k) : (2 ^ k * b).testBit i = false := by
  have h := testBit_add_mul_low (a := 0) (b := b) (Nat.two_pow_pos k) hi
  rw [Nat.zero_add] at h
  rw [h, Nat.zero_testBit]

theorem testBit_mul_pow_high {b k j : Nat} : (2 ^ k * b).testBit (k + j) = b.testBit j := by
  have h := testBit_add_mul_high (a := 0) (b := b) (k := k) (j := j) (Nat.two_pow_pos k)
  rwa [Nat.zero_add] at h

theorem testBit_div_pow (m k j : Nat) : (m / 2 ^ k).testBit j = m.testBit (k + j) := by
  rw [Nat.testBit_to_div_mod, Nat.testBit_to_div_mod, Nat.div_div_eq_div_mul, ← Nat.pow_add]

theorem land_lt_two_pow_left {a m k : Nat} (ha : a < 2 ^ k) : a &&& m < 2 ^ k :=
  Nat.lt_of_le_of_lt Nat.and_le_left ha

theorem land_add_mul {a b m k : Nat} (ha : a < 2 ^ k) :
    (a + 2 ^ k * b) &&& m = (a &&& m) + 2 ^ k * (b &&& m / 2 ^ k) := by
  have ham : a &&& m < 2 ^ k := land_lt_two_pow_left ha
  apply Nat.eq_of_testBit_eq
  intro i
  rcases Nat.lt_or_ge i k with hi | hi
  · rw [Nat.testBit_land, testBit_add_mul_low ha hi, testBit_add_mul_low ham hi,
      Nat.testBit_land]
  · obtain ⟨j, rfl⟩ : ∃ j, i = k + j := ⟨i - k, by omega⟩
    rw [Nat.testBit_land, testBit_add_mul_high ha, testBit_add_mul_high ham,
      Nat.testBit_land, testBit_div_pow]

theorem land_mul_pow_left {x m j : Nat} : x &&& 2 ^ j * m = 2 ^ j * (x / 2 ^ j &&& m) := by
  apply Nat.eq_of_testBit_eq
  intro i
  rcases Nat.lt_or_ge i j with hi | hi
  · rw [Nat.testBit_land, testBit_mul_pow_low hi, testBit_mul_pow_low hi, Bool.and_false]
  · obtain ⟨i', rfl⟩ : ∃ i', i = j + i' := ⟨i - j, by omega⟩
    rw [Nat.testBit_land, testBit_mul_pow_high, testBit_mul_pow_high, Nat.testBit_land,
      testBit_div_pow]

theorem land_small_mask {a m k : Nat} (ha : a < 2 ^ k) : a &&& m = a &&& m % 2 ^ k := by
  apply Nat.eq_of_testBit_eq
  intro i
  rcases Nat.lt_or_ge i k with hi | hi
  · rw [Nat.testBit_land, Nat.testBit_land, Nat.testBit_mod_two_pow]
    simp [hi]
  · have hai : a.testBit i = false :=
      Nat.testBit_lt_two_pow (Nat.lt_of_lt_of_le ha (Nat.pow_le_pow_right (by omega) hi))
    rw [Nat.testBit_land, Nat.testBit_land, hai, Bool.false_and, Bool.false_and]

/-! ### Unsigned SWAR stage analysis

The word is analysed through its 2-bit, 4-bit and 8-bit fields.  `bitcnt n u`
is the number of set bits among the low `n` bits of `u`; `vec2`/`vec4`/
`nib`, `bytesCnt` are the intermediate SWAR states (per-field bit counts in
fields of width 2, 4, 4 and 8); `mask55 n`, `mask33 n`, `mask0f n` are the constants
`0x5...5`, `0x3...3`, `0x0f...0f` with `n` fields. -/

def bitcnt : Nat → Nat → Nat
  | 0, _ => 0
  | n + 1, u => u % 2 + bitcnt n (u / 2)

def mask55 : Nat → Nat
  | 0 => 0
  | n + 1 => 1 + 4 * mask55 n

def mask33 : Nat → Nat
  | 0 => 0
  | n + 1 => 3 + 16 * mask33 n

def mask0f : Nat → Nat
  | 0 => 0
  | n + 1 => 15 + 256 * mask0f n

def vec2 : Nat → Nat → Nat
  | 0, _ => 0
  | n + 1, u => (u % 2 + u / 2 % 2) + 4 * vec2 n (u / 4)

def vec4 : Nat → Nat → Nat
  | 0, _ => 0
  | n + 1, u => (u % 4 + u / 4 % 4) + 16 * vec4 n (u / 16)

def nib : Nat → Nat → Nat
  | 0, _ => 0
  | n + 1, u => bitcnt 4 (u % 16) + 16 * nib n (u / 16)

def bytesCnt : Nat → Nat → Nat
  | 0, _ => 0
  | n + 1, u => bitcnt 8 (u % 256) + 256 * bytesCnt n (u / 256)

theorem bitcnt_le : ∀ (n u : Nat), bitcnt n u ≤ n := by
  intro n
  induction n with
  | zero => intro u; simp [bitcnt]
  | succ n ih =>
    intro u
    have := ih (u / 2)
    simp only [bitcnt]
    omega

theorem bitcnt_zero_arg : ∀ n : Nat, bitcnt n 0 = 0 := by
  intro n
  induction n with
  | zero => rfl
  | succ n ih => simp [bitcnt, ih]

/-- Stage 1: `u - ((u >> 1) & 0x55..55)` computes the per-2-bit-field bit
counts. -/
theorem stage1_eq (n : Nat) : ∀ u : Nat, u < 4 ^ n →
    u - (u / 2 &&& mask55 n) = vec2 n u := by
  induction n with
  | zero =>
    intro u hu
    have : u = 0 := by simpa using hu
    subst this
    rfl
  | succ n ih =>
    intro u hu
    have hsplit : u / 2 = u % 4 / 2 + 2 ^ 1 * (u / 4) := by
      rw [Nat.pow_one]
      omega
    have hmask : mask55 (n + 1) = 1 + 4 * mask55 n := rfl
    have hland : u / 2 &&& mask55 (n + 1) =
        u % 4 / 2 + 4 * (u / 4 / 2 &&& mask55 n) := by
      rw [hsplit, land_add_mul (by rw [Nat.pow_one]; omega)]
      have hlow : u % 4 / 2 &&& mask55 (n + 1) = u % 4 / 2 := by
        rw [land_small_mask (k := 1) (by rw [Nat.pow_one]; omega)]
        have hm2 : mask55 (n + 1) % 2 ^ 1 = 1 := by
          rw [hmask, Nat.pow_one]
          omega
        rw [hm2, Nat.and_one_is_mod]
        omega
      have hhigh : mask55 (n + 1) / 2 ^ 1 = 2 * mask55 n := by
        rw [hmask, Nat.pow_one]
        omega
      rw [hlow, hhigh]
      have h2m : (2 : Nat) * mask55 n = 2 ^ 1 * mask55 n := by rw [Nat.pow_one]
      rw [h2m, land_mul_pow_left, Nat.pow_one]
      ring_nf
    have hv : u / 4 < 4 ^ n := by
      have : (4 : Nat) ^ (n + 1) = 4 ^ n * 4 := by rw [Nat.pow_succ]
      omega
    have hih := ih (u / 4) hv
    have hle : u / 4 / 2 &&& mask55 n ≤ u / 4 / 2 := Nat.and_le_left
    simp only [vec2]
    rw [hland]
    omega

/-- Stage 2: `(w & 0x33..33) + ((w >> 2) & 0x33..33)` sums adjacent 2-bit
fields into 4-bit fields. -/
theorem stage2_eq (n : Nat) : ∀ u : Nat,
    (u &&& mask33 n) + (u / 4 &&& mask33 n) = vec4 n u := by
  induction n with
  | zero =>
    intro u
    show (u &&& 0) + (u / 4 &&& 0) = 0
    rw [Nat.and_zero, Nat.and_zero]
  | succ n ih =>
    intro u
    have hmask : mask33 (n + 1) = 3 + 16 * mask33 n := rfl
    have h16 : (16 : Nat) = 2 ^ 4 := by norm_num
    have hfirst : u &&& mask33 (n + 1) = u % 4 + 16 * (u / 16 &&& mask33 n) := by
      have hsplit : u = u % 16 + 2 ^ 4 * (u / 16) := by rw [← h16]; omega
      conv_lhs => rw [hsplit]
      rw [land_add_mul (by rw [← h16]; omega)]
      have hlow : u % 16 &&& mask33 (n + 1) = u % 4 := by
        rw [land_small_mask (k := 4) (by rw [← h16]; omega)]
        have hm : mask33 (n + 1) % 2 ^ 4 = 3 := by
          rw [hmask, ← h16]
          omega
        rw [hm]
        have h3 : (3 : Nat) = 2 ^ 2 - 1 := by norm_num
        rw [h3, Nat.and_pow_two_sub_one_eq_mod]
        omega
      have hhigh : mask33 (n + 1) / 2 ^ 4 = mask33 n := by
        rw [hmask, ← h16]
        omega
      rw [hlow, hhigh, ← h16]
    have hsecond : u / 4 &&& mask33 (n + 1) = u % 16 / 4 + 16 * (u / 16 / 4 &&& mask33 n) := by
      have hsplit : u / 4 = u % 16 / 4 + 2 ^ 2 * (u / 16) := by
        have : (2 : Nat) ^ 2 = 4 := by norm_num
        rw [this]
        omega
      rw [hsplit, land_add_mul (by norm_num; omega)]
      have hlow : u % 16 / 4 &&& mask33 (n + 1) = u % 16 / 4 := by
        rw [land_small_mask (k := 2) (by norm_num; omega)]
        have hm : mask33 (n + 1) % 2 ^ 2 = 3 := by
          rw [hmask]
          norm_num
          omega
        rw [hm]
        have h3 : (3 : Nat) = 2 ^ 2 - 1 := by norm_num
        rw [h3, Nat.and_pow_two_sub_one_eq_mod]
        omega
      have hhigh : mask33 (n + 1) / 2 ^ 2 = 4 * mask33 n := by
        rw [hmask]
        norm_num
        omega
      rw [hlow, hhigh]
      have h4m : (4 : Nat) * mask33 n = 2 ^ 2 * mask33 n := by norm_num
      rw [h4m, land_mul_pow_left]
      have h22 : (2 : Nat) ^ 2 = 4 := by norm_num
      rw [h22]
      omega
    rw [hfirst, hsecond]
    have hih := ih (u / 16)
    simp only [vec4]
    omega

theorem bitcnt4_expand (x : Nat) :
    bitcnt 4 x = x % 2 + (x / 2 % 2 + (x / 2 / 2 % 2 + (x / 2 / 2 / 2 % 2 + 0))) := rfl

theorem bitcnt8_expand (x : Nat) :
    bitcnt 8 x = x % 2 + (x / 2 % 2 + (x / 2 / 2 % 2 + (x / 2 / 2 / 2 % 2 +
      (x / 2 / 2 / 2 / 2 % 2 + (x / 2 / 2 / 2 / 2 / 2 % 2 +
      (x / 2 / 2 / 2 / 2 / 2 / 2 % 2 + (x / 2 / 2 / 2 / 2 / 2 / 2 / 2 % 2 + 0))))))) := rfl

/-- Composing stages 1 and 2: per-4-bit-field bit counts. -/
theorem vec4_vec2 (n : Nat) : ∀ u : Nat, vec4 n (vec2 (2 * n) u) = nib n u := by
  induction n with
  | zero => intro u; rfl
  | succ n ih =>
    intro u
    have h2 : 2 * (n + 1) = 2 * n + 1 + 1 := by omega
    rw [h2]
    have hvec2 : vec2 (2 * n + 1 + 1) u =
        (u % 2 + u / 2 % 2) +
          4 * ((u / 4 % 2 + u / 4 / 2 % 2) + 4 * vec2 (2 * n) (u / 4 / 4)) := by
      simp only [vec2]
    have h44 : u / 4 / 4 = u / 16 := by omega
    rw [hvec2, h44]
    have hih : vec4 n (vec2 (2 * n) (u / 16)) = nib n (u / 16) := ih (u / 16)
    generalize hT : vec2 (2 * n) (u / 16) = T at hih ⊢
    simp only [vec4, nib]
    have hW16 : (u % 2 + u / 2 % 2 + 4 * (u / 4 % 2 + u / 4 / 2 % 2 + 4 * T)) / 16 = T := by
      omega
    rw [hW16, hih, bitcnt4_expand]
    clear hvec2 hT hW16 hih h2 h44 ih
    omega

theorem nib_mod16 (m v : Nat) : nib m v % 16 ≤ 4 := by
  cases m with
  | zero => simp [nib]
  | succ m =>
    have h := bitcnt_le 4 (v % 16)
    simp only [nib]
    omega

/-- Stage 3: `(w + (w >> 4)) & 0x0f..0f` sums adjacent 4-bit fields into
per-byte bit counts. -/
theorem stage3_eq (n : Nat) : ∀ u : Nat,
    (nib (2 * n) u + nib (2 * n) u / 16) &&& mask0f n = bytesCnt n u := by
  induction n with
  | zero =>
    intro u
    show _ &&& 0 = 0
    rw [Nat.and_zero]
  | succ n ih =>
    intro u
    have h2 : 2 * (n + 1) = 2 * n + 1 + 1 := by omega
    rw [h2]
    have hnib : nib (2 * n + 1 + 1) u =
        bitcnt 4 (u % 16) + 16 * (bitcnt 4 (u / 16 % 16) + 16 * nib (2 * n) (u / 16 / 16)) := by
      simp only [nib]
    have h1616 : u / 16 / 16 = u / 256 := by omega
    rw [hnib, h1616]
    have hih : (nib (2 * n) (u / 256) + nib (2 * n) (u / 256) / 16) &&& mask0f n =
        bytesCnt n (u / 256) := ih (u / 256)
    have hac : bitcnt 4 (u % 16) + bitcnt 4 (u / 16 % 16) = bitcnt 8 (u % 256) := by
      rw [bitcnt4_expand, bitcnt4_expand, bitcnt8_expand]
      omega
    have hbd0 : nib (2 * n) (u / 256) % 16 ≤ 4 := nib_mod16 _ _
    generalize hd : nib (2 * n) (u / 256) = d at hih hbd0 ⊢
    have hba : bitcnt 4 (u % 16) ≤ 4 := bitcnt_le 4 _
    have hbc : bitcnt 4 (u / 16 % 16) ≤ 4 := bitcnt_le 4 _
    generalize ha : bitcnt 4 (u % 16) = a at hac hba ⊢
    generalize hc : bitcnt 4 (u / 16 % 16) = c at hac hbc ⊢
    have h256 : (2 : Nat) ^ 8 = 256 := by norm_num
    have hsplit : a + 16 * (c + 16 * d) + (a + 16 * (c + 16 * d)) / 16 =
        (a + 16 * (c + 16 * d) + (a + 16 * (c + 16 * d)) / 16) % 256 +
          2 ^ 8 * ((a + 16 * (c + 16 * d) + (a + 16 * (c + 16 * d)) / 16) / 256) := by
      rw [h256]
      omega
    rw [hsplit, land_add_mul (by rw [h256]; omega)]
    have hmask : mask0f (n + 1) = 15 + 256 * mask0f n := rfl
    have hlow : (a + 16 * (c + 16 * d) + (a + 16 * (c + 16 * d)) / 16) % 256 &&&
        mask0f (n + 1) = a + c := by
      rw [land_small_mask (k := 8) (by rw [h256]; omega)]
      have hm : mask0f (n + 1) % 2 ^ 8 = 15 := by
        rw [hmask, h256]
        omega
      rw [hm, show (15 : Nat) = 2 ^ 4 - 1 from by norm_num,
        Nat.and_pow_two_sub_one_eq_mod]
      omega
    have hhigh : mask0f (n + 1) / 2 ^ 8 = mask0f n := by
      rw [hmask, h256]
      omega
    have hrest : (a + 16 * (c + 16 * d) + (a + 16 * (c + 16 * d)) / 16) / 256 =
        d + d / 16 := by omega
    rw [hlow, hhigh, hrest, hih]
    simp only [bytesCnt]
    rw [h256]
    clear hnib hih hd ha hc hsplit hlow hhigh hrest hmask h2 h1616 ih
    omega

theorem bitcnt_split (k : Nat) : ∀ (m u : Nat),
    bitcnt (m + k) u = bitcnt m u + bitcnt k (u / 2 ^ m) := by
  intro m
  induction m generalizing k with
  | zero =>
    intro u
    simp [bitcnt, Nat.zero_add]
  | succ m ihm =>
    intro u
    have h : m + 1 + k = (m + k) + 1 := by omega
    rw [h]
    show u % 2 + bitcnt (m + k) (u / 2) = (u % 2 + bitcnt m (u / 2)) + bitcnt k (u / 2 ^ (m + 1))
    rw [ihm k (u / 2)]
    have hdd : u / 2 / 2 ^ m = u / 2 ^ (m + 1) := by
      rw [Nat.div_div_eq_div_mul, Nat.pow_succ']
    rw [hdd]
    omega

theorem bitcnt_mod (m : Nat) : ∀ u : Nat, bitcnt m (u % 2 ^ m) = bitcnt m u := by
  induction m with
  | zero => intro u; rfl
  | succ m ih =>
    intro u
    show u % 2 ^ (m + 1) % 2 + bitcnt m (u % 2 ^ (m + 1) / 2) = u % 2 + bitcnt m (u / 2)
    have h1 : u % 2 ^ (m + 1) % 2 = u % 2 :=
      Nat.mod_mod_of_dvd u ⟨2 ^ m, by rw [Nat.pow_succ']⟩
    have h2 : u % 2 ^ (m + 1) / 2 = u / 2 % 2 ^ m := by
      rw [Nat.pow_succ']
      exact Nat.mod_mul_right_div_self u 2 (2 ^ m)
    rw [h1, h2, ih (u / 2)]

theorem bitcnt32_bytes (u : Nat) :
    bitcnt 32 u = bitcnt 8 (u % 256) + (bitcnt 8 (u / 256 % 256) +
      (bitcnt 8 (u / 256 / 256 % 256) + bitcnt 8 (u / 256 / 256 / 256 % 256))) := by
  have h256 : (2 : Nat) ^ 8 = 256 := by norm_num
  have h1 : bitcnt 32 u = bitcnt 8 u + bitcnt 24 (u / 256) := by
    have := bitcnt_split 24 8 u
    rw [h256] at this
    exact this
  have h2 : bitcnt 24 (u / 256) = bitcnt 8 (u / 256) + bitcnt 16 (u / 256 / 256) := by
    have := bitcnt_split 16 8 (u / 256)
    rw [h256] at this
    exact this
  have h3 : bitcnt 16 (u / 256 / 256) =
      bitcnt 8 (u / 256 / 256) + bitcnt 8 (u / 256 / 256 / 256) := by
    have := bitcnt_split 8 8 (u / 256 / 256)
    rw [h256] at this
    exact this
  have m0 := bitcnt_mod 8 u
  have m1 := bitcnt_mod 8 (u / 256)
  have m2 := bitcnt_mod 8 (u / 256 / 256)
  have m3 := bitcnt_mod 8 (u / 256 / 256 / 256)
  rw [h256] at m0 m1 m2 m3
  rw [h1, h2, h3, ← m0, ← m1, ← m2, ← m3]

/-- The full unsigned 32-bit SWAR pipeline computes the number of set bits. -/
theorem uswar_eq (u s1 s2 s3 s4 s5 : Nat) (hu : u < 4294967296)
    (h1 : s1 = u - (u / 2 &&& 1431655765))
    (h2 : s2 = (s1 &&& 858993459) + (s1 / 4 &&& 858993459))
    (h3 : s3 = (s2 + s2 / 16) &&& 252645135)
    (h4 : s4 = s3 + s3 / 256)
    (h5 : s5 = s4 + s4 / 65536) :
    s5 &&& 63 = bitcnt 32 u := by
  have hm55 : mask55 16 = 1431655765 := by norm_num [mask55]
  have hm33 : mask33 8 = 858993459 := by norm_num [mask33]
  have hm0f : mask0f 4 = 252645135 := by norm_num [mask0f]
  have e1 : s1 = vec2 16 u := by
    rw [h1, ← hm55]
    exact stage1_eq 16 u (by norm_num at hu ⊢; omega)
  have e2 : s2 = nib 8 u := by
    rw [h2, e1, ← hm33, stage2_eq 8 (vec2 16 u)]
    exact vec4_vec2 8 u
  have e3 : s3 = bytesCnt 4 u := by
    rw [h3, e2, ← hm0f]
    exact stage3_eq 4 u
  have hb : bytesCnt 4 u = bitcnt 8 (u % 256) + 256 * (bitcnt 8 (u / 256 % 256) +
      256 * (bitcnt 8 (u / 256 / 256 % 256) +
        256 * (bitcnt 8 (u / 256 / 256 / 256 % 256) + 256 * 0))) := rfl
  have hp0 : bitcnt 8 (u % 256) ≤ 8 := bitcnt_le 8 _
  have hp1 : bitcnt 8 (u / 256 % 256) ≤ 8 := bitcnt_le 8 _
  have hp2 : bitcnt 8 (u / 256 / 256 % 256) ≤ 8 := bitcnt_le 8 _
  have hp3 : bitcnt 8 (u / 256 / 256 / 256 % 256) ≤ 8 := bitcnt_le 8 _
  have h63 : s5 &&& 63 = s5 % 64 := by
    rw [show (63 : Nat) = 2 ^ 6 - 1 from by norm_num, Nat.and_pow_two_sub_one_eq_mod]
  rw [h63, h5, h4, e3, hb, bitcnt32_bytes]
  clear h63 h5 h4 h3 h2 h1 e1 e2 e3 hb hm55 hm33 hm0f hu
  generalize bitcnt 8 (u % 256) = p0 at *
  generalize bitcnt 8 (u / 256 % 256) = p1 at *
  generalize bitcnt 8 (u / 256 / 256 % 256) = p2 at *
  generalize bitcnt 8 (u / 256 / 256 / 256 % 256) = p3 at *
  have hB : p0 + 256 * (p1 + 256 * (p2 + 256 * (p3 + 256 * 0))) =
      p0 + 256 * p1 + 65536 * p2 + 16777216 * p3 := by ring
  rw [hB]
  have he : (p0 + 256 * p1 + 65536 * p2 + 16777216 * p3) / 256 =
      p1 + 256 * p2 + 65536 * p3 := by omega
  rw [he]
  have hf : (p0 + 256 * p1 + 65536 * p2 + 16777216 * p3 +
      (p1 + 256 * p2 + 65536 * p3)) / 65536 = p2 + p3 + 256 * p3 := by omega
  rw [hf]
  omega

/-! ### Signed-to-unsigned bridge

The JavaScript operators in `popcount32` see int32 values (the `>>` shift is
sign-extending), but after every mask the sign bits are discarded, so the
computation agrees with the unsigned pipeline above. -/

theorem toUint32_coe_small {n : Nat} (h : n < 4294967296) : toUint32 (n : Int) = n := by
  unfold toUint32
  omega

theorem toInt32_small {p : Nat} (h : p < 2147483648) : toInt32 p = (p : Int) := by
  unfold toInt32
  split
  · omega
  · omega

theorem toInt32_large {p : Nat} (h1 : p < 4294967296) (h2 : 2147483648 ≤ p) :
    toInt32 p = (p : Int) - 4294967296 := by
  unfold toInt32
  split
  · omega
  · omega

theorem toUint32_toInt32 {p : Nat} (hp : p < 4294967296) : toUint32 (toInt32 p) = p := by
  unfold toInt32 toUint32
  split
  · omega
  · omega

theorem land_add_mul_top (x m j c : Nat) (hx : x < 2 ^ j) (hm : m < 2 ^ j) :
    (x + 2 ^ j * c) &&& m = x &&& m := by
  rw [land_add_mul hx, Nat.div_eq_of_lt hm, Nat.and_zero, Nat.mul_zero, Nat.add_zero]

theorem jsAnd_coe_small (x m : Nat) (hx : x < 4294967296) (hm : m < 2147483648) :
    jsAnd (x : Int) (m : Int) = ((x &&& m : Nat) : Int) := by
  unfold jsAnd
  rw [toUint32_coe_small hx, toUint32_coe_small (by omega)]
  exact toInt32_small (Nat.lt_of_le_of_lt Nat.and_le_right hm)

theorem jsShr_coe_small (x k : Nat) (hx : x < 2147483648) :
    jsShr (x : Int) k = ((x / 2 ^ k : Nat) : Int) := by
  unfold jsShr jsToInt32
  rw [toUint32_coe_small (by omega), toInt32_small hx,
    Int.fdiv_eq_ediv _ (by positivity)]
  rw [Int.ofNat_ediv]
  norm_num

theorem jsShr1_and (p : Nat) (hp : p < 4294967296) :
    jsAnd (jsShr (toInt32 p) 1) 1431655765 = ((p / 2 &&& 1431655765 : Nat) : Int) := by
  unfold jsShr jsToInt32 jsAnd
  rw [toUint32_toInt32 hp, Int.fdiv_eq_ediv _ (by norm_num)]
  have hm' : toUint32 (1431655765 : Int) = 1431655765 := by
    unfold toUint32
    omega
  rw [hm']
  by_cases h31 : p < 2147483648
  · rw [toInt32_small h31]
    have hdiv : ((p : Int) / 2 ^ 1) = ((p / 2 : Nat) : Int) := by
      norm_num
    rw [hdiv, toUint32_coe_small (by omega)]
    exact toInt32_small (Nat.lt_of_le_of_lt Nat.and_le_right (by norm_num))
  · rw [toInt32_large hp (by omega)]
    have hdiv : ((p : Int) - 4294967296) / 2 ^ 1 = ((p / 2 : Nat) : Int) - 2147483648 := by
      norm_num
      omega
    rw [hdiv]
    have htu : toUint32 (((p / 2 : Nat) : Int) - 2147483648) = p / 2 + 2147483648 := by
      unfold toUint32
      omega
    rw [htu]
    have hland : (p / 2 + 2147483648) &&& 1431655765 = p / 2 &&& 1431655765 := by
      have h31' : (2147483648 : Nat) = 2 ^ 31 * 1 := by norm_num
      rw [h31']
      exact land_add_mul_top (p / 2) 1431655765 31 1 (by norm_num; omega) (by norm_num)
    rw [hland]
    exact toInt32_small (Nat.lt_of_le_of_lt Nat.and_le_right (by norm_num))

theorem jsShr2_and (p : Nat) (hp : p < 4294967296) :
    jsAnd (jsShr (toInt32 p) 2) 858993459 = ((p / 4 &&& 858993459 : Nat) : Int) := by
  unfold jsShr jsToInt32 jsAnd
  rw [toUint32_toInt32 hp, Int.fdiv_eq_ediv _ (by norm_num)]
  have hm' : toUint32 (858993459 : Int) = 858993459 := by
    unfold toUint32
    omega
  rw [hm']
  by_cases h31 : p < 2147483648
  · rw [toInt32_small h31]
    have hdiv : ((p : Int) / 2 ^ 2) = ((p / 4 : Nat) : Int) := by
      norm_num
    rw [hdiv, toUint32_coe_small (by omega)]
    exact toInt32_small (Nat.lt_of_le_of_lt Nat.and_le_right (by norm_num))
  · rw [toInt32_large hp (by omega)]
    have hdiv : ((p : Int) - 4294967296) / 2 ^ 2 = ((p / 4 : Nat) : Int) - 1073741824 := by
      norm_num
      omega
    rw [hdiv]
    have htu : toUint32 (((p / 4 : Nat) : Int) - 1073741824) = p / 4 + 3221225472 := by
      unfold toUint32
      omega
    rw [htu]
    have hland : (p / 4 + 3221225472) &&& 858993459 = p / 4 &&& 858993459 := by
      have h30' : (3221225472 : Nat) = 2 ^ 30 * 3 := by norm_num
      rw [h30']
      exact land_add_mul_top (p / 4) 858993459 30 3 (by norm_num; omega) (by norm_num)
    rw [hland]
    exact toInt32_small (Nat.lt_of_le_of_lt Nat.and_le_right (by norm_num))

theorem jsAnd_coe_0f (x : Nat) (hx : x < 4294967296) :
    jsAnd (x : Int) 252645135 = ((x &&& 252645135 : Nat) : Int) := by
  unfold jsAnd
  rw [toUint32_coe_small hx]
  have hm : toUint32 (252645135 : Int) = 252645135 := by
    unfold toUint32
    omega
  rw [hm]
  exact toInt32_small (Nat.lt_of_le_of_lt Nat.and_le_right (by norm_num))

theorem jsAnd_coe_3f (x : Nat) (hx : x < 4294967296) :
    jsAnd (x : Int) 63 = ((x &&& 63 : Nat) : Int) := by
  unfold jsAnd
  rw [toUint32_coe_small hx]
  have hm : toUint32 (63 : Int) = 63 := by
    unfold toUint32
    omega
  rw [hm]
  exact toInt32_small (Nat.lt_of_le_of_lt Nat.and_le_right (by norm_num))

/-- `popcount32` on the int32 reinterpretation of a 32-bit pattern computes
the pattern's number of set bits. -/
theorem popcount32_toInt32 (p : Nat) (hp : p < 4294967296) :
    popcount32 (toInt32 p) = (bitcnt 32 p : Int) := by
  have hL : p / 2 &&& 1431655765 ≤ p / 2 := Nat.and_le_left
  have hs1lt : p - (p / 2 &&& 1431655765) < 4294967296 := by omega
  simp only [popcount32]
  rw [jsShr1_and p hp]
  have ha : toInt32 p - ((p / 2 &&& 1431655765 : Nat) : Int) =
      toInt32 p - ((p / 2 &&& 1431655765 : Nat) : Int) := rfl
  -- the pattern of the stage-1 value
  have hau : toUint32 (toInt32 p - ((p / 2 &&& 1431655765 : Nat) : Int)) =
      p - (p / 2 &&& 1431655765) := by
    unfold toInt32 toUint32
    split
    · omega
    · omega
  -- rewrite stage-2 operands
  have hand1 : jsAnd (toInt32 p - ((p / 2 &&& 1431655765 : Nat) : Int)) 858993459 =
      (((p - (p / 2 &&& 1431655765)) &&& 858993459 : Nat) : Int) := by
    unfold jsAnd
    rw [hau]
    have hm' : toUint32 (858993459 : Int) = 858993459 := by
      unfold toUint32
      omega
    rw [hm']
    exact toInt32_small (Nat.lt_of_le_of_lt Nat.and_le_right (by norm_num))
  have hshr2 : jsShr (toInt32 p - ((p / 2 &&& 1431655765 : Nat) : Int)) 2 =
      jsShr (toInt32 (p - (p / 2 &&& 1431655765))) 2 := by
    unfold jsShr jsToInt32
    rw [hau, toUint32_toInt32 hs1lt]
  rw [hand1, hshr2, jsShr2_and _ hs1lt]
  -- stage 2 value as a natural number
  have hX : ((p - (p / 2 &&& 1431655765)) &&& 858993459) ≤ 858993459 := Nat.and_le_right
  have hY : ((p - (p / 2 &&& 1431655765)) / 4 &&& 858993459) ≤ 858993459 := Nat.and_le_right
  rw [show (((p - (p / 2 &&& 1431655765)) &&& 858993459 : Nat) : Int) +
      (((p - (p / 2 &&& 1431655765)) / 4 &&& 858993459 : Nat) : Int) =
      ((((p - (p / 2 &&& 1431655765)) &&& 858993459) +
        ((p - (p / 2 &&& 1431655765)) / 4 &&& 858993459) : Nat) : Int) from by push_cast; ring]
  -- stage 3
  rw [jsShr_coe_small _ 4 (by omega)]
  rw [show ((((p - (p / 2 &&& 1431655765)) &&& 858993459) +
        ((p - (p / 2 &&& 1431655765)) / 4 &&& 858993459) : Nat) : Int) +
      ((((p - (p / 2 &&& 1431655765)) &&& 858993459) +
        ((p - (p / 2 &&& 1431655765)) / 4 &&& 858993459)) / 2 ^ 4 : Nat) =
      ((((p - (p / 2 &&& 1431655765)) &&& 858993459) +
        ((p - (p / 2 &&& 1431655765)) / 4 &&& 858993459) +
       (((p - (p / 2 &&& 1431655765)) &&& 858993459) +
        ((p - (p / 2 &&& 1431655765)) / 4 &&& 858993459)) / 2 ^ 4 : Nat) : Int) from by
    push_cast
    ring]
  rw [jsAnd_coe_0f _ (by omega)]
  -- stage 4
  have hs3le : (((p - (p / 2 &&& 1431655765)) &&& 858993459) +
      ((p - (p / 2 &&& 1431655765)) / 4 &&& 858993459) +
      (((p - (p / 2 &&& 1431655765)) &&& 858993459) +
        ((p - (p / 2 &&& 1431655765)) / 4 &&& 858993459)) / 2 ^ 4) &&& 252645135
      ≤ 252645135 := Nat.and_le_right
  rw [jsShr_coe_small _ 8 (by omega)]
  rw [show ∀ x : Nat, ((x : Int) + ((x / 2 ^ 8 : Nat) : Int)) = ((x + x / 2 ^ 8 : Nat) : Int)
    from fun x => by push_cast; ring]
  -- stage 5
  rw [jsShr_coe_small _ 16 (by omega)]
  rw [show ∀ x y : Nat, ((x : Int) + ((y : Nat) : Int)) = ((x + y : Nat) : Int)
    from fun x y => by push_cast; ring]
  rw [jsAnd_coe_3f _ (by omega)]
  rw [show (2 : Nat) ^ 4 = 16 from by norm_num, show (2 : Nat) ^ 8 = 256 from by norm_num,
    show (2 : Nat) ^ 16 = 65536 from by norm_num]
  exact_mod_cast uswar_eq p _ _ _ _ _ hp rfl rfl rfl rfl rfl

theorem bitcnt_succ_top (n : Nat) : ∀ u : Nat,
    bitcnt (n + 1) u = bitcnt n u + u / 2 ^ n % 2 := by
  induction n with
  | zero =>
    intro u
    show u % 2 + 0 = 0 + u / 2 ^ 0 % 2
    simp
  | succ n ih =>
    intro u
    show u % 2 + bitcnt (n + 1) (u / 2) = (u % 2 + bitcnt n (u / 2)) + u / 2 ^ (n + 1) % 2
    rw [ih (u / 2)]
    have hdd : u / 2 / 2 ^ n = u / 2 ^ (n + 1) := by
      rw [Nat.div_div_eq_div_mul, Nat.pow_succ']
    rw [hdd]
    omega

theorem countP_testBit (n : Nat) : ∀ u : Nat,
    (List.range n).countP (fun i => u.testBit i) = bitcnt n u := by
  induction n with
  | zero => intro u; simp [bitcnt]
  | succ n ih =>
    intro u
    rw [List.range_succ, List.countP_append, ih u, bitcnt_succ_top]
    simp only [List.countP_cons, List.countP_nil]
    rw [Nat.testBit_to_div_mod]
    rcases Nat.mod_two_eq_zero_or_one (u / 2 ^ n) with h | h
    · simp [h]
    · simp [h]

theorem bne_eq_xor (p q : Bool) : (p != q) = (p ^^ q) := by
  cases p <;> cases q <;> rfl

/-- Claim C6: for all fingerprints whose halves are unsigned 32-bit values,
`hammingDistance` equals the brute-force count of differing bit positions
across both halves; consequently it lies in `[0, 64]` and
`hammingDistance a a = 0`. -/
theorem hammingDistance_spec (a b : SimHash64)
    (h1 : a.high < 4294967296) (h2 : a.low < 4294967296)
    (h3 : b.high < 4294967296) (h4 : b.low < 4294967296) :
    hammingDistance a b = (diffBits a b : Int)
    ∧ 0 ≤ hammingDistance a b
    ∧ hammingDistance a b ≤ 64
    ∧ hammingDistance a a = 0 := by
  have key : ∀ x y : Nat, x < 4294967296 → y < 4294967296 →
      popcount32 (jsXor (x : Int) (y : Int)) = (bitcnt 32 (x ^^^ y) : Int) := by
    intro x y hx hy
    have hxor : x ^^^ y < 4294967296 := by
      have h := Nat.xor_lt_two_pow (x := x) (y := y) (n := 32) (by omega) (by omega)
      norm_num at h
      exact h
    have hj : jsXor (x : Int) (y : Int) = toInt32 (x ^^^ y) := by
      unfold jsXor
      rw [toUint32_coe_small hx, toUint32_coe_small hy]
    rw [hj, popcount32_toInt32 _ hxor]
  have hcount : ∀ x y : Nat,
      (List.range 32).countP (fun i => x.testBit i != y.testBit i) = bitcnt 32 (x ^^^ y) := by
    intro x y
    rw [← countP_testBit 32 (x ^^^ y)]
    apply List.countP_congr
    intro i _
    rw [bne_eq_xor, Nat.testBit_xor]
  have hform : hammingDistance a b =
      (bitcnt 32 (a.high ^^^ b.high) : Int) + (bitcnt 32 (a.low ^^^ b.low) : Int) := by
    unfold hammingDistance
    rw [key _ _ h1 h3, key _ _ h2 h4]
  have hformaa : hammingDistance a a = 0 := by
    unfold hammingDistance
    rw [key _ _ h1 h1, key _ _ h2 h2, Nat.xor_self, Nat.xor_self, bitcnt_zero_arg]
    simp
  have hle1 : bitcnt 32 (a.high ^^^ b.high) ≤ 32 := bitcnt_le 32 _
  have hle2 : bitcnt 32 (a.low ^^^ b.low) ≤ 32 := bitcnt_le 32 _
  refine ⟨?_, ?_, ?_, hformaa⟩
  · rw [hform]
    unfold diffBits
    rw [hcount a.high b.high, hcount a.low b.low]
    push_cast
    ring
  · rw [hform]
    omega
  · rw [hform]
    have g1 : (bitcnt 32 (a.high ^^^ b.high) : Int) ≤ 32 := by exact_mod_cast hle1
    have g2 : (bitcnt 32 (a.low ^^^ b.low) : Int) ≤ 32 := by exact_mod_cast hle2
    omega

theorem hammingDistance_spec_witness :
    hammingDistance ⟨1, 2⟩ ⟨3, 4⟩ = (diffBits ⟨1, 2⟩ ⟨3, 4⟩ : Int)
    ∧ 0 ≤ hammingDistance ⟨1, 2⟩ ⟨3, 4⟩
    ∧ hammingDistance ⟨1, 2⟩ ⟨3, 4⟩ ≤ 64
    ∧ hammingDistance ⟨1, 2⟩ ⟨1, 2⟩ = 0 :=
  hammingDistance_spec ⟨1, 2⟩ ⟨3, 4⟩ (by decide) (by decide) (by decide) (by decide)

/-! ## SimHash hex serialization (`src/unnamed/part_001`, lines 196–213)

`simHashToHex` mirrors `high.toString(16).padStart(8, '0') +
low.toString(16).padStart(8, '0')`; `hexToSimHash` mirrors the length guard
and `parseInt(slice, 16) >>> 0`.  `Number.prototype.toString(16)` and
`parseInt` are ECMAScript built-ins (outside the repository), modelled from
their specification: lowercase digit output, and parsing that skips leading
whitespace, accepts an optional sign and `0x` prefix, takes the longest
valid digit prefix and yields NaN (here `none`) when no digit is found. -/

def hexDigitChar (d : Nat) : Char :=
  if d < 10 then Char.ofNat (48 + d) else Char.ofNat (87 + d)

def toHexAux (n : Nat) (acc : List Char) : List Char :=
  if n = 0 then acc
  else toHexAux (n / 16) (hexDigitChar (n % 16) :: acc)
termination_by n
decreasing_by exact Nat.div_lt_self (by omega) (by omega)

/-- `Number.prototype.toString(16)` for a nonnegative integer. -/
def natToHex (n : Nat) : String :=
  if n = 0 then "0" else String.mk (toHexAux n [])

/-- `String.prototype.padStart(len, c)`. -/
def padStart (s : String) (len : Nat) (c : Char) : String :=
  String.mk (List.replicate (len - s.length) c) ++ s

/-- `simHashToHex` (lines 196–200). -/
def simHashToHex (h : SimHash64) : String :=
  padStart (natToHex h.high) 8 '0' ++ padStart (natToHex h.low) 8 '0'

def isHexDigitChar (c : Char) : Bool :=
  (48 ≤ c.toNat && c.toNat ≤ 57) || (97 ≤ c.toNat && c.toNat ≤ 102) ||
    (65 ≤ c.toNat && c.toNat ≤ 70)

def hexDigitVal (c : Char) : Nat :=
  if c.toNat ≤ 57 then c.toNat - 48
  else if c.toNat ≤ 70 then c.toNat - 55
  else c.toNat - 87

def isJsSpace (c : Char) : Bool :=
  c.toNat == 32 || c.toNat == 9 || c.toNat == 10 || c.toNat == 13 ||
    c.toNat == 11 || c.toNat == 12 || c.toNat == 160 || c.toNat == 65279

/-- The optional `0x` / `0X` prefix of `parseInt(.., 16)`. -/
def stripHexIntro : List Char → List Char
  | '0' :: x :: rest => if x == 'x' || x == 'X' then rest else '0' :: x :: rest
  | cs => cs

def parseHexBody (cs : List Char) : Option Nat :=
  let ds := (stripHexIntro cs).takeWhile isHexDigitChar
  if ds.isEmpty then none
  else some (ds.foldl (fun a c => a * 16 + hexDigitVal c) 0)

/-- ECMAScript `parseInt(s, 16)`: `none` is NaN. -/
def parseIntHex (s : String) : Option Int :=
  match s.toList.dropWhile isJsSpace with
  | '-' :: rest => (parseHexBody rest).map (fun v => -(v : Int))
  | '+' :: rest => (parseHexBody rest).map (fun v => (v : Int))
  | cs => (parseHexBody cs).map (fun v => (v : Int))

/-- `x >>> 0` applied to a `parseInt` result (`NaN >>> 0` is `0`). -/
def jsParseToUint32 : Option Int → Nat
  | none => 0
  | some v => toUint32 v

/-- `String.prototype.slice(a, b)` for `0 ≤ a ≤ b`. -/
def strSlice (s : String) (a b : Nat) : String :=
  String.mk ((s.toList.drop a).take (b - a))

/-- `hexToSimHash` (lines 205–213). -/
def hexToSimHash (hex : String) : SimHash64 :=
  if hex.length ≠ 16 then ⟨0, 0⟩
  else
    ⟨jsParseToUint32 (parseIntHex (strSlice hex 0 8)),
      jsParseToUint32 (parseIntHex (strSlice hex 8 16))⟩

/-- Claim C8 counterexample: the malformed length-16 string
`"1z00000000000000"` (not 16 lowercase hex digits) yields the fingerprint
`{high: 1, low: 0}`, not the zero fingerprint: `parseInt("1z000000", 16)`
parses the leading `"1"`. -/
theorem hexToSimHash_malformed_nonzero :
    hexToSimHash "1z00000000000000" = ⟨1, 0⟩
    ∧ hexToSimHash "1z00000000000000" ≠ ⟨0, 0⟩ := by
  constructor
  · decide
  · decide

/-- Claim C8, amended: `hexToSimHash` returns the zero fingerprint for every
string whose length differs from 16, and never throws; a malformed string of
length exactly 16 may produce a non-zero fingerprint, because each half is
parsed by taking its longest valid leading hex digit sequence (a half with
no valid leading digit becomes NaN and then 0). -/
theorem hexToSimHash_wrong_length (s : String) (h : s.length ≠ 16) :
    hexToSimHash s = ⟨0, 0⟩ := by
  unfold hexToSimHash
  rw [if_pos h]

theorem hexToSimHash_wrong_length_witness : hexToSimHash "abc" = ⟨0, 0⟩ :=
  hexToSimHash_wrong_length "abc" (by decide)

def isLowerHexDigit (c : Char) : Bool :=
  (48 ≤ c.toNat && c.toNat ≤ 57) || (97 ≤ c.toNat && c.toNat ≤ 102)

theorem hexDigitChar_lower : ∀ d, d < 16 → isLowerHexDigit (hexDigitChar d) = true := by
  decide

theorem hexDigitChar_hex : ∀ d, d < 16 → isHexDigitChar (hexDigitChar d) = true := by
  decide

theorem hexDigitChar_not_space : ∀ d, d < 16 → isJsSpace (hexDigitChar d) = false := by
  decide

theorem hexDigitChar_ne_minus : ∀ d, d < 16 → hexDigitChar d ≠ '-' := by
  decide

theorem hexDigitChar_ne_plus : ∀ d, d < 16 → hexDigitChar d ≠ '+' := by
  decide

theorem hexDigitChar_ne_x : ∀ d, d < 16 →
    (hexDigitChar d == 'x') = false ∧ (hexDigitChar d == 'X') = false := by
  decide

theorem hexDigitChar_val : ∀ d, d < 16 → hexDigitVal (hexDigitChar d) = d := by
  decide

theorem zero_char_is_digit : '0' = hexDigitChar 0 := by
  decide

theorem toHexAux_mem : ∀ (n : Nat) (acc : List Char),
    (∀ c ∈ acc, ∃ d, d < 16 ∧ c = hexDigitChar d) →
    ∀ c ∈ toHexAux n acc, ∃ d, d < 16 ∧ c = hexDigitChar d := by
  intro n acc
  induction n, acc using toHexAux.induct with
  | case1 acc =>
    intro hacc
    rw [toHexAux, if_pos rfl]
    exact hacc
  | case2 n acc hn ih =>
    intro hacc c hc
    rw [toHexAux, if_neg hn] at hc
    refine ih ?_ c hc
    intro c' hc'
    rcases List.mem_cons.mp hc' with h | h
    · exact ⟨n % 16, by omega, h⟩
    · exact hacc c' h

theorem toHexAux_length : ∀ (k n : Nat) (acc : List Char), n < 16 ^ k →
    (toHexAux n acc).length ≤ k + acc.length := by
  intro k
  induction k with
  | zero =>
    intro n acc hn
    have : n = 0 := by simpa using hn
    rw [this, toHexAux, if_pos rfl]
    simp
  | succ k ih =>
    intro n acc hn
    by_cases h0 : n = 0
    · rw [h0, toHexAux, if_pos rfl]
      omega
    · rw [toHexAux, if_neg h0]
      have hdiv : n / 16 < 16 ^ k := by
        have hp : (16 : Nat) ^ (k + 1) = 16 ^ k * 16 := Nat.pow_succ 16 k
        omega
      have := ih (n / 16) (hexDigitChar (n % 16) :: acc) hdiv
      simp only [List.length_cons] at this
      omega

theorem toHexAux_foldl : ∀ (n : Nat) (acc : List Char),
    (toHexAux n acc).foldl (fun a c => a * 16 + hexDigitVal c) 0 =
      acc.foldl (fun a c => a * 16 + hexDigitVal c) n := by
  intro n acc
  induction n, acc using toHexAux.induct with
  | case1 acc =>
    rw [toHexAux, if_pos rfl]
  | case2 n acc hn ih =>
    rw [toHexAux, if_neg hn, ih]
    simp only [List.foldl_cons]
    rw [hexDigitChar_val (n % 16) (by omega)]
    congr 1
    omega

theorem takeWhile_all {p : Char → Bool} : ∀ l : List Char,
    (∀ c ∈ l, p c = true) → l.takeWhile p = l := by
  intro l
  induction l with
  | nil => intro _; rfl
  | cons c rest ih =>
    intro h
    have ih' := ih (fun c' hc' => h c' (List.mem_cons_of_mem c hc'))
    rw [List.takeWhile_cons, h c (List.mem_cons_self c rest), ih']
    simp

theorem dropWhile_none {p : Char → Bool} : ∀ l : List Char,
    (∀ c ∈ l, p c = false) → l.dropWhile p = l := by
  intro l
  induction l with
  | nil => intro _; rfl
  | cons c rest _ =>
    intro h
    rw [List.dropWhile_cons, h c (List.mem_cons_self c rest)]
    simp

theorem stripHexIntro_digits (cs : List Char)
    (hD : ∀ c ∈ cs, ∃ d, d < 16 ∧ c = hexDigitChar d) : stripHexIntro cs = cs := by
  unfold stripHexIntro
  split
  · rename_i x rest
    have hx : x ∈ '0' :: x :: rest := List.mem_cons_of_mem _ (List.mem_cons_self x rest)
    obtain ⟨d, hd, rfl⟩ := hD x hx
    have hne := hexDigitChar_ne_x d hd
    rw [hne.1, hne.2]
    simp
  · rfl

theorem parseHexBody_digits (cs : List Char) (hne : cs ≠ [])
    (hD : ∀ c ∈ cs, ∃ d, d < 16 ∧ c = hexDigitChar d) :
    parseHexBody cs = some (cs.foldl (fun a c => a * 16 + hexDigitVal c) 0) := by
  unfold parseHexBody
  rw [stripHexIntro_digits cs hD]
  rw [takeWhile_all cs (fun c hc => by
    obtain ⟨d, hd, rfl⟩ := hD c hc
    exact hexDigitChar_hex d hd)]
  rw [if_neg (by simp [hne])]

theorem parseIntHex_digits (cs : List Char) (hne : cs ≠ [])
    (hD : ∀ c ∈ cs, ∃ d, d < 16 ∧ c = hexDigitChar d) :
    parseIntHex (String.mk cs) =
      some ((cs.foldl (fun a c => a * 16 + hexDigitVal c) 0 : Nat) : Int) := by
  unfold parseIntHex
  show (match cs.dropWhile isJsSpace with
    | '-' :: rest => (parseHexBody rest).map (fun v => -(v : Int))
    | '+' :: rest => (parseHexBody rest).map (fun v => (v : Int))
    | cs => (parseHexBody cs).map (fun v => (v : Int))) = _
  rw [dropWhile_none cs (fun c hc => by
    obtain ⟨d, hd, rfl⟩ := hD c hc
    exact hexDigitChar_not_space d hd)]
  cases cs with
  | nil => exact absurd rfl hne
  | cons c rest =>
    have hc0 : c ∈ c :: rest := List.mem_cons_self c rest
    obtain ⟨d, hd, hcd⟩ := hD c hc0
    split
    · rename_i rest' heq
      rw [List.cons.injEq] at heq
      exact absurd (hcd.symm.trans heq.1) (hexDigitChar_ne_minus d hd)
    · rename_i rest' heq
      rw [List.cons.injEq] at heq
      exact absurd (hcd.symm.trans heq.1) (hexDigitChar_ne_plus d hd)
    · rw [parseHexBody_digits (c :: rest) hne hD]
      rfl

theorem foldl_zeros : ∀ k : Nat,
    (List.replicate k '0').foldl (fun a c => a * 16 + hexDigitVal c) 0 = 0 := by
  intro k
  induction k with
  | zero => rfl
  | succ k ih =>
    rw [List.replicate_succ, List.foldl_cons]
    have h0 : hexDigitVal '0' = 0 := by decide
    rw [h0]
    simpa using ih

theorem natToHex_foldl (n : Nat) :
    (natToHex n).data.foldl (fun a c => a * 16 + hexDigitVal c) 0 = n := by
  unfold natToHex
  by_cases h0 : n = 0
  · rw [if_pos h0, h0]
    decide
  · rw [if_neg h0]
    show (toHexAux n []).foldl (fun a c => a * 16 + hexDigitVal c) 0 = n
    rw [toHexAux_foldl n []]
    rfl

theorem natToHex_mem (n : Nat) :
    ∀ c ∈ (natToHex n).data, ∃ d, d < 16 ∧ c = hexDigitChar d := by
  unfold natToHex
  by_cases h0 : n = 0
  · rw [if_pos h0]
    intro c hc
    have : c = '0' := by
      cases hc with
      | head => rfl
      | tail _ h => exact absurd h (List.not_mem_nil c)
    exact ⟨0, by omega, by rw [this]; decide⟩
  · rw [if_neg h0]
    exact toHexAux_mem n [] (fun c hc => absurd hc (List.not_mem_nil c))

theorem natToHex_length (n : Nat) (hn : n < 4294967296) : (natToHex n).length ≤ 8 := by
  unfold natToHex
  by_cases h0 : n = 0
  · rw [if_pos h0]
    decide
  · rw [if_neg h0]
    show (toHexAux n []).length ≤ 8
    have := toHexAux_length 8 n [] (by norm_num; omega)
    simpa using this

theorem parse_pad_half (n : Nat) (hn : n < 4294967296) :
    jsParseToUint32 (parseIntHex (String.mk
      (List.replicate (8 - (natToHex n).length) '0' ++ (natToHex n).data))) = n := by
  have hD : ∀ c ∈ List.replicate (8 - (natToHex n).length) '0' ++ (natToHex n).data,
      ∃ d, d < 16 ∧ c = hexDigitChar d := by
    intro c hc
    rcases List.mem_append.mp hc with h | h
    · have := List.eq_of_mem_replicate h
      exact ⟨0, by omega, by rw [this]; decide⟩
    · exact natToHex_mem n c h
  have hlen : (natToHex n).data.length = (natToHex n).length := rfl
  have hne : List.replicate (8 - (natToHex n).length) '0' ++ (natToHex n).data ≠ [] := by
    intro hcontra
    have := congrArg List.length hcontra
    simp only [List.length_append, List.length_replicate, List.length_nil, hlen] at this
    have h8 := natToHex_length n hn
    omega
  rw [parseIntHex_digits _ hne hD]
  show toUint32 _ = n
  rw [List.foldl_append, foldl_zeros, natToHex_foldl n]
  exact toUint32_coe_small hn

theorem padStart_data (s : String) :
    (padStart s 8 '0').data = List.replicate (8 - s.length) '0' ++ s.data := rfl

theorem padStart_length (s : String) (h : s.length ≤ 8) : (padStart s 8 '0').length = 8 := by
  unfold padStart
  rw [String.length_append, String.length_mk, List.length_replicate]
  omega

/-- Claim C7: for every fingerprint whose halves are unsigned 32-bit values,
`simHashToHex` produces a 16-character string of lowercase hex digits (high
half first, zero-padded) and `hexToSimHash` inverts it exactly; and every
string whose length is not 16 decodes to the zero fingerprint. -/
theorem hex_roundtrip_spec :
    (∀ f : SimHash64, f.high < 4294967296 → f.low < 4294967296 →
      (simHashToHex f).length = 16
      ∧ (∀ c ∈ (simHashToHex f).data, isLowerHexDigit c = true)
      ∧ hexToSimHash (simHashToHex f) = f)
    ∧ (∀ s : String, s.length ≠ 16 → hexToSimHash s = ⟨0, 0⟩) := by
  constructor
  · intro f hH hL
    have hlenH := padStart_length (natToHex f.high) (natToHex_length f.high hH)
    have hlenL := padStart_length (natToHex f.low) (natToHex_length f.low hL)
    have hlen16 : (simHashToHex f).length = 16 := by
      unfold simHashToHex
      rw [String.length_append, hlenH, hlenL]
    have hdataH : (padStart (natToHex f.high) 8 '0').data.length = 8 := hlenH
    have hdataL : (padStart (natToHex f.low) 8 '0').data.length = 8 := hlenL
    have hmemH : ∀ c ∈ (padStart (natToHex f.high) 8 '0').data,
        ∃ d, d < 16 ∧ c = hexDigitChar d := by
      rw [padStart_data]
      intro c hc
      rcases List.mem_append.mp hc with h | h
      · have := List.eq_of_mem_replicate h
        exact ⟨0, by omega, by rw [this]; decide⟩
      · exact natToHex_mem f.high c h
    have hmemL : ∀ c ∈ (padStart (natToHex f.low) 8 '0').data,
        ∃ d, d < 16 ∧ c = hexDigitChar d := by
      rw [padStart_data]
      intro c hc
      rcases List.mem_append.mp hc with h | h
      · have := List.eq_of_mem_replicate h
        exact ⟨0, by omega, by rw [this]; decide⟩
      · exact natToHex_mem f.low c h
    refine ⟨hlen16, ?_, ?_⟩
    · intro c hc
      have hdata : (simHashToHex f).data =
          (padStart (natToHex f.high) 8 '0').data ++
            (padStart (natToHex f.low) 8 '0').data := by
        unfold simHashToHex
        rw [String.data_append]
      rw [hdata] at hc
      rcases List.mem_append.mp hc with h | h
      · obtain ⟨d, hd, rfl⟩ := hmemH c h
        exact hexDigitChar_lower d hd
      · obtain ⟨d, hd, rfl⟩ := hmemL c h
        exact hexDigitChar_lower d hd
    · unfold hexToSimHash
      rw [if_neg (by rw [hlen16]; omega)]
      have hslice1 : strSlice (simHashToHex f) 0 8 =
          String.mk (padStart (natToHex f.high) 8 '0').data := by
        unfold strSlice simHashToHex
        congr 1
        rw [String.toList, String.data_append, List.drop_zero]
        show List.take (8 - 0) _ = _
        rw [Nat.sub_zero]
        exact List.take_left' hdataH
      have hslice2 : strSlice (simHashToHex f) 8 16 =
          String.mk (padStart (natToHex f.low) 8 '0').data := by
        unfold strSlice simHashToHex
        congr 1
        rw [String.toList, String.data_append]
        rw [List.drop_left' hdataH]
        show List.take (16 - 8) _ = _
        exact List.take_of_length_le (by rw [hdataL])
      rw [hslice1, hslice2]
      have hvalH : jsParseToUint32 (parseIntHex
          (String.mk (padStart (natToHex f.high) 8 '0').data)) = f.high := by
        have := parse_pad_half f.high hH
        rw [← padStart_data] at this
        exact this
      have hvalL : jsParseToUint32 (parseIntHex
          (String.mk (padStart (natToHex f.low) 8 '0').data)) = f.low := by
        have := parse_pad_half f.low hL
        rw [← padStart_data] at this
        exact this
      rw [hvalH, hvalL]
  · intro s h
    unfold hexToSimHash
    rw [if_pos h]

theorem hex_roundtrip_spec_witness :
    (simHashToHex ⟨3735928559, 19088743⟩).length = 16
    ∧ (∀ c ∈ (simHashToHex ⟨3735928559, 19088743⟩).data, isLowerHexDigit c = true)
    ∧ hexToSimHash (simHashToHex ⟨3735928559, 19088743⟩) = ⟨3735928559, 19088743⟩ :=
  hex_roundtrip_spec.1 ⟨3735928559, 19088743⟩ (by decide) (by decide)

/-! ## Clustering (`src/unnamed/part_001`, lines 185–191 and 245–272) -/

/-- `isSimilar` (lines 185–191). -/
def isSimilar (a b : SimHash64) (threshold : Int) : Bool :=
  hammingDistance a b ≤ threshold

/-- The inner `for (let j = i + 1; j < n; j++)` loop of `clusterBySimilarity`,
iterating over the remaining indices `js`, carrying the growing cluster and
visited list. -/
def innerLoop (hashes : List SimHash64) (t : Int) (i : Nat) :
    List Nat → List Nat → List Nat → List Nat × List Nat
  | [], cluster, visited => (cluster, visited)
  | j :: js, cluster, visited =>
    if j ∈ visited then innerLoop hashes t i js cluster visited
    else if isSimilar (hashes.getD i ⟨0, 0⟩) (hashes.getD j ⟨0, 0⟩) t then
      innerLoop hashes t i js (cluster ++ [j]) (visited ++ [j])
    else innerLoop hashes t i js cluster visited

/-- The outer `for (let i = 0; i < n; i++)` loop of `clusterBySimilarity`. -/
def outerLoop (hashes : List SimHash64) (t : Int) :
    List Nat → List Nat → List (List Nat) → List (List Nat)
  | [], _, clusters => clusters
  | i :: is', visited, clusters =>
    if i ∈ visited then outerLoop hashes t is' visited clusters
    else
      let r := innerLoop hashes t i
        (List.range' (i + 1) (hashes.length - (i + 1))) [i] (visited ++ [i])
      outerLoop hashes t is' r.2 (clusters ++ [r.1])

/-- `clusterBySimilarity` (lines 245–272). -/
def clusterBySimilarity (hashes : List SimHash64) (threshold : Int) : List (List Nat) :=
  outerLoop hashes threshold (List.range hashes.length) [] []

/-- Claim C9: with three fingerprints `[A, B, C]`, a threshold `t`,
`hammingDistance A B ≤ t` and `hammingDistance A C > t`, greedy clustering
returns exactly `[[0, 1], [2]]` — `C` is not merged into `A`'s cluster even
when `B` and `C` are similar, because membership is tested against the
cluster seed only. -/
theorem cluster_non_transitive (A B C : SimHash64) (t : Int)
    (hAB : hammingDistance A B ≤ t) (hAC : ¬hammingDistance A C ≤ t) :
    clusterBySimilarity [A, B, C] t = [[0, 1], [2]] := by
  have h1 : isSimilar A B t = true := by
    simp [isSimilar]
    exact hAB
  have h2 : isSimilar A C t = false := by
    simp [isSimilar]
    omega
  show outerLoop [A, B, C] t [0, 1, 2] [] [] = [[0, 1], [2]]
  simp only [outerLoop, innerLoop, List.range']
  norm_num [h1, h2]

theorem cluster_non_transitive_witness :
    clusterBySimilarity [⟨0, 0⟩, ⟨0, 0⟩, ⟨0, 1⟩] 0 = [[0, 1], [2]] :=
  cluster_non_transitive ⟨0, 0⟩ ⟨0, 0⟩ ⟨0, 1⟩ 0 (by decide) (by decide)

/-- The inner loop appends the same new indices to the cluster and to the
visited list; each added index comes from the scanned range and was not
visited before; no duplicates are introduced. -/
theorem innerLoop_spec (hashes : List SimHash64) (t : Int) (i : Nat) :
    ∀ (js cluster visited : List Nat), ∃ added : List Nat,
      innerLoop hashes t i js cluster visited = (cluster ++ added, visited ++ added)
      ∧ (∀ a ∈ added, a ∈ js ∧ a ∉ visited)
      ∧ (visited.Nodup → (visited ++ added).Nodup) := by
  intro js
  induction js with
  | nil =>
    intro cluster visited
    refine ⟨[], by simp [innerLoop], by simp, by simp⟩
  | cons j js ih =>
    intro cluster visited
    by_cases hj : j ∈ visited
    · obtain ⟨added, heq, hmem, hnd⟩ := ih cluster visited
      refine ⟨added, ?_, ?_, hnd⟩
      · simp only [innerLoop, if_pos hj]
        exact heq
      · intro a ha
        exact ⟨List.mem_cons_of_mem j (hmem a ha).1, (hmem a ha).2⟩
    · by_cases hsim : isSimilar (hashes.getD i ⟨0, 0⟩) (hashes.getD j ⟨0, 0⟩) t
      · obtain ⟨added, heq, hmem, hnd⟩ := ih (cluster ++ [j]) (visited ++ [j])
        refine ⟨j :: added, ?_, ?_, ?_⟩
        · simp only [innerLoop, if_neg hj, if_pos hsim]
          rw [heq]
          simp
        · intro a ha
          rcases List.mem_cons.mp ha with rfl | ha'
          · exact ⟨List.mem_cons_self a js, hj⟩
          · have h1 := (hmem a ha').1
            have h2 := (hmem a ha').2
            constructor
            · exact List.mem_cons_of_mem j h1
            · intro hcontra
              exact h2 (List.mem_append_left [j] hcontra)
        · intro hvn
          have hvj : (visited ++ [j]).Nodup := by
            rw [List.nodup_append]
            exact ⟨hvn, List.nodup_singleton j, by simpa using hj⟩
          have := hnd hvj
          rw [List.append_assoc] at this
          simpa using this
      · obtain ⟨added, heq, hmem, hnd⟩ := ih cluster visited
        refine ⟨added, ?_, ?_, hnd⟩
        · simp only [innerLoop, if_neg hj, if_neg hsim]
          exact heq
        · intro a ha
          exact ⟨List.mem_cons_of_mem j (hmem a ha).1, (hmem a ha).2⟩

/-- Outer-loop invariant: the visited list is exactly the concatenation of
the clusters, stays duplicate-free and in range, grows monotonically, every
scanned index ends up clustered, and every cluster is a seed followed by
larger indices. -/
theorem outerLoop_spec (hashes : List SimHash64) (t : Int) :
    ∀ (is' : List Nat) (visited : List Nat) (clusters : List (List Nat)),
      visited.Nodup →
      visited = clusters.flatten →
      (∀ c ∈ clusters, ∃ s rest, c = s :: rest ∧ ∀ j ∈ rest, s < j) →
      (∀ x ∈ visited, x < hashes.length) →
      (∀ i ∈ is', i < hashes.length) →
      (outerLoop hashes t is' visited clusters).flatten.Nodup
      ∧ (∀ x ∈ visited, x ∈ (outerLoop hashes t is' visited clusters).flatten)
      ∧ (∀ i ∈ is', i ∈ (outerLoop hashes t is' visited clusters).flatten)
      ∧ (∀ x ∈ (outerLoop hashes t is' visited clusters).flatten, x < hashes.length)
      ∧ (∀ c ∈ outerLoop hashes t is' visited clusters,
          ∃ s rest, c = s :: rest ∧ ∀ j ∈ rest, s < j) := by
  intro is'
  induction is' with
  | nil =>
    intro visited clusters hnd hflat hshape hbound _
    simp only [outerLoop]
    rw [← hflat]
    exact ⟨hnd, fun x hx => hx, by simp, hbound, hshape⟩
  | cons i is'' ih =>
    intro visited clusters hnd hflat hshape hbound his
    by_cases hi : i ∈ visited
    · simp only [outerLoop, if_pos hi]
      obtain ⟨c1, c2, c3, c4, c5⟩ := ih visited clusters hnd hflat hshape hbound
        (fun i' hi' => his i' (List.mem_cons_of_mem i hi'))
      refine ⟨c1, c2, ?_, c4, c5⟩
      intro i' hi'
      rcases List.mem_cons.mp hi' with rfl | h
      · exact c2 i' hi
      · exact c3 i' h
    · simp only [outerLoop, if_neg hi]
      obtain ⟨added, heq, hmem, hnd'⟩ := innerLoop_spec hashes t i
        (List.range' (i + 1) (hashes.length - (i + 1))) [i] (visited ++ [i])
      rw [heq]
      have hin : i < hashes.length := his i (List.mem_cons_self i is'')
      have haddedlt : ∀ a ∈ added, i < a ∧ a < hashes.length := by
        intro a ha
        have hr := (hmem a ha).1
        rw [List.mem_range'] at hr
        obtain ⟨k, hk, hak⟩ := hr
        omega
      have hvnd : (visited ++ [i]).Nodup := by
        rw [List.nodup_append]
        exact ⟨hnd, List.nodup_singleton i, by simpa using hi⟩
      have hflat' : (visited ++ [i]) ++ added = (clusters ++ [[i] ++ added]).flatten := by
        rw [List.flatten_append, ← hflat]
        simp
      have hshape' : ∀ c ∈ clusters ++ [[i] ++ added],
          ∃ s rest, c = s :: rest ∧ ∀ j ∈ rest, s < j := by
        intro c hc
        rcases List.mem_append.mp hc with h | h
        · exact hshape c h
        · have : c = [i] ++ added := List.mem_singleton.mp h
          exact ⟨i, added, by rw [this]; rfl, fun j hj => (haddedlt j hj).1⟩
      have hbound' : ∀ x ∈ (visited ++ [i]) ++ added, x < hashes.length := by
        intro x hx
        rcases List.mem_append.mp hx with h | h
        · rcases List.mem_append.mp h with h' | h'
          · exact hbound x h'
          · rw [List.mem_singleton.mp h']
            exact hin
        · exact (haddedlt x h).2
      obtain ⟨c1, c2, c3, c4, c5⟩ := ih ((visited ++ [i]) ++ added)
        (clusters ++ [[i] ++ added]) (hnd' hvnd) hflat' hshape' hbound'
        (fun i' hi' => his i' (List.mem_cons_of_mem i hi'))
      refine ⟨c1, ?_, ?_, c4, c5⟩
      · intro x hx
        exact c2 x (List.mem_append_left _ (List.mem_append_left _ hx))
      · intro i' hi'
        rcases List.mem_cons.mp hi' with rfl | h
        · exact c2 i' (List.mem_append_left _ (List.mem_append_right _ (by simp)))
        · exact c3 i' h

/-- Claim C10: the clusters returned by `clusterBySimilarity` partition the
index set: every index `i < n` occurs exactly once across all clusters,
nothing outside the index range occurs, every cluster is non-empty, and each
cluster's first element (its seed) is strictly smaller than every other
element of the cluster. -/
theorem cluster_partition (hashes : List SimHash64) (t : Int) :
    (∀ i, i < hashes.length → (clusterBySimilarity hashes t).flatten.count i = 1)
    ∧ (∀ x ∈ (clusterBySimilarity hashes t).flatten, x < hashes.length)
    ∧ (∀ c ∈ clusterBySimilarity hashes t,
        ∃ s rest, c = s :: rest ∧ ∀ j ∈ rest, s < j) := by
  obtain ⟨c1, c2, c3, c4, c5⟩ := outerLoop_spec hashes t (List.range hashes.length) [] []
    (by simp) (by simp) (by simp) (by simp) (fun i hi => List.mem_range.mp hi)
  refine ⟨?_, c4, c5⟩
  intro i hi
  exact List.count_eq_one_of_mem c1 (c3 i (List.mem_range.mpr hi))

theorem cluster_partition_witness :
    (clusterBySimilarity [⟨0, 0⟩, ⟨0, 1⟩] 0).flatten.count 0 = 1 :=
  (cluster_partition [⟨0, 0⟩, ⟨0, 1⟩] 0).1 0 (by decide)
